import Mathlib

/-!
Verification of the 2048 grid engine in `src/2048游戏/_2048游戏.py`.

The board is the 4×4 numpy array `self.board` (`SIZE = 4` in the source),
embedded as a function `Fin 4 × Fin 4 → Nat`; cell `(i, j)` is
`self.board[i][j]`.  The pygame rendering and event loop are out of scope.
Randomness (`random.choice` over the empty cells and the 90/10 coin flip of
`add_new_tile`) is modelled by explicit oracle parameters: a natural number
`k` selecting the index `k % len(empty_cells)` into the list of empty cells,
and a boolean `four` that is true when the spawned tile is a 4.
-/

namespace Game2048

/-- The 4×4 grid: `self.board`, with `SIZE = 4` as in the source. -/
abbrev Board := Fin 4 × Fin 4 → Nat

/-- `self.board.T` — numpy transpose (lines 65, 89 of the source). -/
def transpose (b : Board) : Board := fun p => b (p.2, p.1)

/-- `np.fliplr(self.board)` — reverse each row (lines 67, 91). -/
def fliplr (b : Board) : Board := fun p => b (p.1, p.2.rev)

/-- The row `self.board[i]` as a list (`SIZE = 4`, so four cells). -/
def rowList (b : Board) (i : Fin 4) : List Nat :=
  [b (i, 0), b (i, 1), b (i, 2), b (i, 3)]

/-- One step of the in-place merge loop of `move` (lines 76-80): `x` is the
cell at the current index `j`, the list is the cells from index `j + 1` on.
Whenever `non_zero[j] == non_zero[j+1]`, the cell `j` is doubled, cell
`j+1` is zeroed and the doubled value is added to the score; the loop then
continues at index `j+1`, whose cell now holds `0` (the recursive call with
`0` as current cell).  Returns the mutated cells from index `j` on, together
with the score gained. -/
def mergeGo (x : Nat) : List Nat → List Nat × Nat
  | [] => ([x], 0)
  | y :: rest =>
    if x = y then
      let r := mergeGo 0 rest
      (x * 2 :: r.1, r.2 + x * 2)
    else
      let r := mergeGo y rest
      (x :: r.1, r.2)

/-- The whole merge loop of `move` (lines 76-80) run over a row: the loop
`for j in range(len(non_zero) - 1)` does nothing on a row with fewer than
two cells, and otherwise scans from index `0`. -/
def mergePass : List Nat → List Nat × Nat
  | [] => ([], 0)
  | x :: rest => mergeGo x rest

/-- `new_row = np.zeros(SIZE); new_row[:len(non_zero)] = non_zero`
(lines 84-85): pad a list with zeros up to length `SIZE = 4`. -/
def padTo4 (l : List Nat) : List Nat := l ++ List.replicate (4 - l.length) 0

/-- The per-row body of the `move` loop (lines 71-86): drop the zeros
(`row[row != 0]`), run the merge loop, drop the zeros produced by merging,
and pad with zeros on the right.  Returns the new row and the score gained. -/
def slideRow (row : List Nat) : List Nat × Nat :=
  let nz := row.filter (fun x => x != 0)
  let m := mergePass nz
  let nz2 := m.1.filter (fun x => x != 0)
  (padTo4 nz2, m.2)

/-- The forward transform of `move` (lines 64-69): direction `0` (up) is
`self.board.T`, direction `1` (right) is `np.fliplr(self.board)`, direction
`2` (down) is `np.fliplr(self.board).T`, and any other direction leaves the
board unchanged (no branch matches). -/
def forwardT (d : Int) (b : Board) : Board :=
  if d = 0 then transpose b
  else if d = 1 then fliplr b
  else if d = 2 then transpose (fliplr b)
  else b

/-- The inverse transform of `move` (lines 88-93): direction `0` is
`self.board.T`, direction `1` is `np.fliplr(self.board)`, direction `2` is
`np.fliplr(self.board.T)`, and any other direction leaves the board
unchanged. -/
def inverseT (d : Int) (b : Board) : Board :=
  if d = 0 then transpose b
  else if d = 1 then fliplr b
  else if d = 2 then fliplr (transpose b)
  else b

/-- The row loop of `move` applied to every row of the (already transformed)
board: row `i` becomes `slideRow` of row `i`. -/
def slideBoard (b : Board) : Board :=
  fun p => (slideRow (rowList b p.1)).1.getD p.2.val 0

/-- The total score gained by the row loop of `move` (`self.score +=` over
the four rows, `for i in range(SIZE)`). -/
def slideScore (b : Board) : Nat :=
  (slideRow (rowList b 0)).2 + (slideRow (rowList b 1)).2 +
    (slideRow (rowList b 2)).2 + (slideRow (rowList b 3)).2

/-- The deterministic slide/merge part of `Game2048.move` (lines 59-93):
forward transform, per-row slide and merge, inverse transform.  Returns the
board as it stands just before the `np.array_equal` comparison on line 95,
together with the score increase accumulated on line 80. -/
def moveDet (d : Int) (b : Board) : Board × Nat :=
  (inverseT d (slideBoard (forwardT d b)), slideScore (forwardT d b))

/-- `empty_cells` of `Game2048.add_new_tile` (line 54): all coordinates
`(i, j)` with `board[i][j] == 0`, in row-major order. -/
def empty_cells (b : Board) : List (Fin 4 × Fin 4) :=
  (List.finRange 4).flatMap fun i =>
    ((List.finRange 4).filter (fun j => b (i, j) == 0)).map fun j => (i, j)

/-- `Game2048.add_new_tile` (lines 53-57): if the board has an empty cell,
one empty cell is chosen (`random.choice`, modelled by the oracle index
`k % len(empty_cells)`) and set to `2` or `4` (`random.random() < 0.9`,
modelled by the oracle flag `four`).  If the board is full this is a no-op. -/
def add_new_tile (k : Nat) (four : Bool) (b : Board) : Board :=
  let e := empty_cells b
  if h : e = [] then b
  else
    let p := e.get ⟨k % e.length, Nat.mod_lt _ (List.length_pos.mpr h)⟩
    fun q => if q = p then (if four then 4 else 2) else b q

/-- The mutable state of a `Game2048` instance: `self.board`, `self.score`,
`self.game_over`. -/
structure GameState where
  board : Board
  score : Nat
  game_over : Bool

/-- `Game2048.is_game_over` (lines 102-113): `False` if some cell is `0`, or
some cell equals its right neighbour, or some cell equals its bottom
neighbour; `True` otherwise. -/
def is_game_over (b : Board) : Bool :=
  if (List.finRange 4).any (fun i =>
      (List.finRange 4).any fun j => b (i, j) == 0) then
    false
  else if (List.finRange 4).any (fun i =>
      (List.finRange 3).any fun j => b (i, j.castSucc) == b (i, j.succ)) then
    false
  else if (List.finRange 3).any (fun i =>
      (List.finRange 4).any fun j => b (i.castSucc, j) == b (i.succ, j)) then
    false
  else
    true

/-- `Game2048.move` (lines 59-101).  The score is incremented during the row
loop (line 80) whether or not the board changes; if the board changed
(line 95), a tile is spawned and `game_over` is set when `is_game_over`
holds; the returned boolean is `moved`. -/
def move (k : Nat) (four : Bool) (d : Int) (st : GameState) : GameState × Bool :=
  let r := moveDet d st.board
  if st.board = r.1 then
    ({ board := r.1, score := st.score + r.2, game_over := st.game_over }, false)
  else
    let b2 := add_new_tile k four r.1
    ({ board := b2, score := st.score + r.2,
       game_over := if is_game_over b2 then true else st.game_over }, true)

/-- `Game2048.reset` (lines 46-51): zero board, score `0`, two spawned
tiles, `game_over = False`.  The previous state is discarded entirely, so the
model takes only the two spawn oracles. -/
def reset (k1 k2 : Nat) (f1 f2 : Bool) : GameState :=
  { board := add_new_tile k2 f2 (add_new_tile k1 f1 fun _ => 0)
    score := 0
    game_over := false }

/-- A sequence of `move` calls starting from a state, each with its own
spawn oracle: the reachable-state iterator for the engine. -/
def run (ms : List (Nat × Bool × Int)) (st : GameState) : GameState :=
  ms.foldl (fun s m => (move m.1 m.2.1 m.2.2 s).1) st

/-- The number of non-zero cells of a board. -/
def countNZBoard (b : Board) : Nat :=
  (Finset.univ.filter fun p : Fin 4 × Fin 4 => b p ≠ 0).card

/-- A cell value is `0` or a positive power of two. -/
def validCell (v : Nat) : Prop := v = 0 ∨ ∃ n : Nat, v = 2 ^ (n + 1)

/-- Every cell is `0` or a positive power of two. -/
def validBoard (b : Board) : Prop := ∀ p, validCell (b p)

/-- Modelled from the spec (§4.2 step b): the merge scan that, after merging
a pair, advances past the merged cell so that a cell produced by a merge is
never merged again in the same move.  Stated over the compacted (zero-free)
row; used only to compare the source's merge loop against the spec's words. -/
def mergeOnceSpec : List Nat → List Nat
  | x :: y :: rest => if x = y then x * 2 :: mergeOnceSpec rest else x :: mergeOnceSpec (y :: rest)
  | l => l

/-- Modelled from the spec (§8, score monotonicity): the pre-merge values
`v` of the merges performed by the (merge-once) scan on a compacted row. -/
def mergeValues : List Nat → List Nat
  | x :: y :: rest => if x = y then x :: mergeValues rest else mergeValues (y :: rest)
  | _ => []

/-- The pre-merge values of all merges performed by a move with direction
`d` on board `b`: the merges of each row of the transformed board, after
compaction. -/
def mergeValuesOfMove (d : Int) (b : Board) : List Nat :=
  mergeValues ((rowList (forwardT d b) 0).filter fun x => x != 0) ++
    mergeValues ((rowList (forwardT d b) 1).filter fun x => x != 0) ++
    mergeValues ((rowList (forwardT d b) 2).filter fun x => x != 0) ++
    mergeValues ((rowList (forwardT d b) 3).filter fun x => x != 0)

/-- Modelled from the spec (§4.2): the canonicalization the spec prescribes
for the down move — transpose, then horizontal-flip each row, slide left,
horizontal-flip back, then transpose back. -/
def moveDownSpec (b : Board) : Board × Nat :=
  (transpose (fliplr (slideBoard (fliplr (transpose b)))),
    slideScore (fliplr (transpose b)))

/-- A board whose only tiles are two `2`s at the top of column 0. -/
def exTwoInColumn : Board := fun p => if p = (0, 0) ∨ p = (1, 0) then 2 else 0

/-- A board with a single `2` at cell `(0, 1)`. -/
def exSingleTile : Board := fun p => if p = ((0 : Fin 4), (1 : Fin 4)) then 2 else 0

/-- The all-zero board. -/
def zeroBoard : Board := fun _ => 0

/-- A full checkerboard of `2`s and `4`s: no zero cell and no equal
neighbours, hence a terminal position. -/
def terminalBoard : Board := fun p => if (p.1.val + p.2.val) % 2 = 0 then 2 else 4

/-! ### Equations of the merge loop -/

theorem mergePass_nil : mergePass [] = ([], 0) := rfl

theorem mergePass_singleton (x : Nat) : mergePass [x] = ([x], 0) := rfl

theorem mergePass_cons_cons (x y : Nat) (rest : List Nat) :
    mergePass (x :: y :: rest) =
      if x = y then
        (x * 2 :: (mergePass (0 :: rest)).1, (mergePass (0 :: rest)).2 + x * 2)
      else
        (x :: (mergePass (y :: rest)).1, (mergePass (y :: rest)).2) := by
  show mergeGo x (y :: rest) = _
  by_cases h : x = y <;> simp [mergeGo, h, mergePass]

theorem ne_zero_of_mem_nzFilter {l : List Nat} {x : Nat}
    (h : x ∈ l.filter fun z => z != 0) : x ≠ 0 := by
  simpa using (List.mem_filter.mp h).2

/-- The merge loop of the source, restricted to zero-free rows (which is how
`move` always calls it), computes exactly the merge-once scan of the spec:
compacting its output gives `mergeOnceSpec`, its score is twice the sum of
the merged values, and it preserves the length of the row. -/
theorem mergePass_spec : ∀ (n : Nat) (l : List Nat), l.length ≤ n → (∀ x ∈ l, x ≠ 0) →
    (mergePass l).1.filter (fun x => x != 0) = mergeOnceSpec l ∧
    (mergePass l).2 = 2 * (mergeValues l).sum ∧
    (mergePass l).1.length = l.length := by
  intro n
  induction n with
  | zero =>
    intro l hl _
    have h : l = [] := List.length_eq_zero.mp (Nat.le_zero.mp hl)
    subst h
    exact ⟨rfl, rfl, rfl⟩
  | succ n ih =>
    intro l hl hz
    rcases l with _ | ⟨x, _ | ⟨y, rest⟩⟩
    · exact ⟨rfl, rfl, rfl⟩
    · have hx : x ≠ 0 := hz x (by simp)
      refine ⟨?_, rfl, rfl⟩
      simp [mergePass_singleton, List.filter_cons, hx, mergeOnceSpec]
    · have hx : x ≠ 0 := hz x (by simp)
      have hyrest : ∀ z ∈ y :: rest, z ≠ 0 := fun z hm => hz z (List.mem_cons_of_mem x hm)
      have hrest : ∀ z ∈ rest, z ≠ 0 := fun z hm => hyrest z (List.mem_cons_of_mem y hm)
      rw [mergePass_cons_cons]
      by_cases hxy : x = y
      · subst hxy
        rw [if_pos rfl]
        have hzero : mergePass (0 :: rest) = (0 :: (mergePass rest).1, (mergePass rest).2) := by
          rcases rest with _ | ⟨z, rs⟩
          · rfl
          · have hz0 : (0 : Nat) ≠ z := fun e => (hrest z (by simp)) e.symm
            rw [mergePass_cons_cons, if_neg hz0]
        obtain ⟨IH1, IH2, IH3⟩ := ih rest (by simp at hl; omega) hrest
        have hx2 : x * 2 ≠ 0 := by omega
        refine ⟨?_, ?_, ?_⟩
        · rw [hzero]
          simp [List.filter_cons, hx2, IH1, mergeOnceSpec]
        · rw [hzero]
          have hmv : mergeValues (x :: x :: rest) = x :: mergeValues rest := by
            simp [mergeValues]
          rw [hmv, List.sum_cons, IH2]
          ring
        · rw [hzero]
          simp [IH3]
      · rw [if_neg hxy]
        obtain ⟨IH1, IH2, IH3⟩ := ih (y :: rest) (by simp at hl ⊢; omega) hyrest
        refine ⟨?_, ?_, ?_⟩
        · simp [List.filter_cons, hx, IH1, mergeOnceSpec, hxy]
        · simp [mergeValues, IH2, hxy]
        · simp [IH3]

theorem mergePass_filter_eq (l : List Nat) (h : ∀ x ∈ l, x ≠ 0) :
    (mergePass l).1.filter (fun x => x != 0) = mergeOnceSpec l :=
  (mergePass_spec l.length l le_rfl h).1

theorem mergePass_score_eq (l : List Nat) (h : ∀ x ∈ l, x ≠ 0) :
    (mergePass l).2 = 2 * (mergeValues l).sum :=
  (mergePass_spec l.length l le_rfl h).2.1

theorem mergePass_length (l : List Nat) (h : ∀ x ∈ l, x ≠ 0) :
    (mergePass l).1.length = l.length :=
  (mergePass_spec l.length l le_rfl h).2.2

/-! ### The merge-once scan -/

/-- Each merge consumes two input cells and emits one output cell: the
compacted output length plus one cell per merge recovers the input length. -/
theorem mergeOnceSpec_length : ∀ (n : Nat) (l : List Nat), l.length ≤ n →
    (mergeOnceSpec l).length + (mergeValues l).length = l.length := by
  intro n
  induction n with
  | zero =>
    intro l hl
    have h : l = [] := List.length_eq_zero.mp (Nat.le_zero.mp hl)
    subst h
    rfl
  | succ n ih =>
    intro l hl
    rcases l with _ | ⟨x, _ | ⟨y, rest⟩⟩
    · rfl
    · rfl
    · by_cases hxy : x = y
      · subst hxy
        have IH := ih rest (by simp at hl; omega)
        have h1 : mergeOnceSpec (x :: x :: rest) = x * 2 :: mergeOnceSpec rest := by
          simp [mergeOnceSpec]
        have h2 : mergeValues (x :: x :: rest) = x :: mergeValues rest := by
          simp [mergeValues]
        rw [h1, h2]
        simp only [List.length_cons]
        omega
      · have IH := ih (y :: rest) (by simp at hl ⊢; omega)
        have h1 : mergeOnceSpec (x :: y :: rest) = x :: mergeOnceSpec (y :: rest) := by
          simp [mergeOnceSpec, hxy]
        have h2 : mergeValues (x :: y :: rest) = mergeValues (y :: rest) := by
          simp [mergeValues, hxy]
        rw [h1, h2]
        simp only [List.length_cons] at IH ⊢
        omega

/-- If the scan performs no merge, it returns the row unchanged. -/
theorem mergeOnceSpec_eq_self : ∀ (n : Nat) (l : List Nat), l.length ≤ n →
    mergeValues l = [] → mergeOnceSpec l = l := by
  intro n
  induction n with
  | zero =>
    intro l hl _
    have h : l = [] := List.length_eq_zero.mp (Nat.le_zero.mp hl)
    subst h
    rfl
  | succ n ih =>
    intro l hl hv
    rcases l with _ | ⟨x, _ | ⟨y, rest⟩⟩
    · rfl
    · rfl
    · by_cases hxy : x = y
      · subst hxy
        have h2 : mergeValues (x :: x :: rest) = x :: mergeValues rest := by
          simp [mergeValues]
        rw [h2] at hv
        exact absurd hv (List.cons_ne_nil _ _)
      · have h1 : mergeOnceSpec (x :: y :: rest) = x :: mergeOnceSpec (y :: rest) := by
          simp [mergeOnceSpec, hxy]
        have h2 : mergeValues (x :: y :: rest) = mergeValues (y :: rest) := by
          simp [mergeValues, hxy]
        rw [h2] at hv
        rw [h1, ih (y :: rest) (by simp at hl ⊢; omega) hv]

/-- The scan of a zero-free row is zero-free. -/
theorem mergeOnceSpec_ne_zero : ∀ (n : Nat) (l : List Nat), l.length ≤ n →
    (∀ x ∈ l, x ≠ 0) → ∀ x ∈ mergeOnceSpec l, x ≠ 0 := by
  intro n
  induction n with
  | zero =>
    intro l hl _
    have h : l = [] := List.length_eq_zero.mp (Nat.le_zero.mp hl)
    subst h
    simp [mergeOnceSpec]
  | succ n ih =>
    intro l hl hz
    rcases l with _ | ⟨x, _ | ⟨y, rest⟩⟩
    · simp [mergeOnceSpec]
    · simpa [mergeOnceSpec] using hz
    · have hx : x ≠ 0 := hz x (by simp)
      have hyrest : ∀ z ∈ y :: rest, z ≠ 0 := fun z hm => hz z (List.mem_cons_of_mem x hm)
      have hrest : ∀ z ∈ rest, z ≠ 0 := fun z hm => hyrest z (List.mem_cons_of_mem y hm)
      by_cases hxy : x = y
      · subst hxy
        have h1 : mergeOnceSpec (x :: x :: rest) = x * 2 :: mergeOnceSpec rest := by
          simp [mergeOnceSpec]
        rw [h1]
        intro z hm
        rcases List.mem_cons.mp hm with hz1 | hz2
        · omega
        · exact ih rest (by simp at hl; omega) hrest z hz2
      · have h1 : mergeOnceSpec (x :: y :: rest) = x :: mergeOnceSpec (y :: rest) := by
          simp [mergeOnceSpec, hxy]
        rw [h1]
        intro z hm
        rcases List.mem_cons.mp hm with hz1 | hz2
        · subst hz1; exact hx
        · exact ih (y :: rest) (by simp at hl ⊢; omega) hyrest z hz2

/-- Every cell output by the merge loop is zero, an input cell, or the
double of an input cell. -/
theorem mergePass_mem : ∀ (n : Nat) (l : List Nat), l.length ≤ n →
    ∀ x ∈ (mergePass l).1, x = 0 ∨ x ∈ l ∨ ∃ y ∈ l, x = y * 2 := by
  intro n
  induction n with
  | zero =>
    intro l hl
    have h : l = [] := List.length_eq_zero.mp (Nat.le_zero.mp hl)
    subst h
    simp [mergePass_nil]
  | succ n ih =>
    intro l hl
    rcases l with _ | ⟨x, _ | ⟨y, rest⟩⟩
    · simp [mergePass_nil]
    · simp [mergePass_singleton]
    · rw [mergePass_cons_cons]
      by_cases hxy : x = y
      · rw [if_pos hxy]
        intro z hm
        rcases List.mem_cons.mp hm with hz1 | hz2
        · subst hz1
          exact Or.inr (Or.inr ⟨x, by simp⟩)
        · rcases ih (0 :: rest) (by simp at hl ⊢; omega) z hz2 with h0 | hmem | ⟨w, hw, he⟩
          · exact Or.inl h0
          · rcases List.mem_cons.mp hmem with he | hmem2
            · exact Or.inl he
            · exact Or.inr (Or.inl (by simp [hmem2]))
          · rcases List.mem_cons.mp hw with he | hw2
            · subst he; exact Or.inl (by simpa using he)
            · exact Or.inr (Or.inr ⟨w, by simp [hw2], he⟩)
      · rw [if_neg hxy]
        intro z hm
        rcases List.mem_cons.mp hm with hz1 | hz2
        · exact Or.inr (Or.inl (by simp [hz1]))
        · rcases ih (y :: rest) (by simp at hl ⊢; omega) z hz2 with h0 | hmem | ⟨w, hw, he⟩
          · exact Or.inl h0
          · exact Or.inr (Or.inl (List.mem_cons_of_mem x hmem))
          · exact Or.inr (Or.inr ⟨w, List.mem_cons_of_mem x hw, he⟩)

/-! ### Padding and compaction -/

theorem padTo4_length (l : List Nat) (h : l.length ≤ 4) : (padTo4 l).length = 4 := by
  simp only [padTo4, List.length_append, List.length_replicate]
  omega

theorem padTo4_eq_self (l : List Nat) (h : l.length = 4) : padTo4 l = l := by
  simp [padTo4, h]

theorem padTo4_getD_three (l : List Nat) (h : l.length ≤ 3) : (padTo4 l).getD 3 0 = 0 := by
  rcases l with _ | ⟨a, _ | ⟨b, _ | ⟨c, _ | ⟨d, t⟩⟩⟩⟩
  · rfl
  · rfl
  · rfl
  · rfl
  · simp only [List.length_cons] at h; omega

theorem filter_replicate_zero (n : Nat) :
    (List.replicate n 0).filter (fun x : Nat => x != 0) = [] := by
  induction n with
  | zero => rfl
  | succ n ih => simp [List.replicate_succ, List.filter_cons, ih]

theorem filter_padTo4 (l : List Nat) :
    (padTo4 l).filter (fun x => x != 0) = l.filter (fun x => x != 0) := by
  simp [padTo4, List.filter_append, filter_replicate_zero]

theorem filter_nz_eq_self (l : List Nat) (h : ∀ x ∈ l, x ≠ 0) :
    l.filter (fun x => x != 0) = l := by
  induction l with
  | nil => rfl
  | cons a t ih =>
    have ha := h a (by simp)
    simp [List.filter_cons, ha, ih fun x hx => h x (List.mem_cons_of_mem a hx)]

theorem filter_nz_length_eq (l : List Nat)
    (h : (l.filter fun x => x != 0).length = l.length) :
    l.filter (fun x => x != 0) = l := by
  induction l with
  | nil => rfl
  | cons a t ih =>
    by_cases ha : a = 0
    · exfalso
      subst ha
      simp only [List.filter_cons] at h
      norm_num at h
      have := List.length_filter_le (fun x : Nat => x != 0) t
      omega
    · simp only [List.filter_cons] at h ⊢
      have hb : (a != 0) = true := by simpa using ha
      rw [hb] at h ⊢
      simp only [if_true, List.length_cons] at h ⊢
      rw [ih (by omega)]

/-! ### The slide of one row -/

theorem slideRow_eq (row : List Nat) :
    slideRow row =
      (padTo4 ((mergePass (row.filter fun x => x != 0)).1.filter fun x => x != 0),
        (mergePass (row.filter fun x => x != 0)).2) := rfl

/-- Closed form of `slideRow`: compaction, merge-once scan, padding; the
score is twice the sum of the merged values. -/
theorem slideRow_closed (row : List Nat) :
    slideRow row =
      (padTo4 (mergeOnceSpec (row.filter fun x => x != 0)),
        2 * (mergeValues (row.filter fun x => x != 0)).sum) := by
  have hz : ∀ x ∈ row.filter (fun x => x != 0), x ≠ 0 :=
    fun x hx => ne_zero_of_mem_nzFilter hx
  rw [slideRow_eq, mergePass_filter_eq _ hz, mergePass_score_eq _ hz]

theorem slideRow_score (row : List Nat) :
    (slideRow row).2 = 2 * (mergeValues (row.filter fun x => x != 0)).sum := by
  rw [slideRow_closed]

theorem slideRow_length (row : List Nat) (h : row.length = 4) :
    (slideRow row).1.length = 4 := by
  have hz : ∀ x ∈ row.filter (fun x => x != 0), x ≠ 0 :=
    fun x hx => ne_zero_of_mem_nzFilter hx
  rw [slideRow_eq]
  apply padTo4_length
  calc ((mergePass (row.filter fun x => x != 0)).1.filter fun x => x != 0).length
      ≤ (mergePass (row.filter fun x => x != 0)).1.length :=
        List.length_filter_le _ _
    _ = (row.filter fun x => x != 0).length := mergePass_length _ hz
    _ ≤ row.length := List.length_filter_le _ _
    _ = 4 := h

/-- A row fixed by `slideRow` gained no score: merging strictly shrinks the
compacted row, so a fixed row has no merge. -/
theorem slideRow_score_eq_zero (row : List Nat) (h : (slideRow row).1 = row) :
    (slideRow row).2 = 0 := by
  have hz : ∀ x ∈ row.filter (fun x => x != 0), x ≠ 0 :=
    fun x hx => ne_zero_of_mem_nzFilter hx
  rw [slideRow_closed] at h ⊢
  simp only []
  have hfix : mergeOnceSpec (row.filter fun x => x != 0) = row.filter (fun x => x != 0) := by
    have := congrArg (fun l => l.filter fun x => x != 0) h
    simpa [filter_padTo4,
      filter_nz_eq_self _ (mergeOnceSpec_ne_zero (row.filter fun x => x != 0).length _ le_rfl hz)]
      using this
  have hlen := mergeOnceSpec_length (row.filter fun x => x != 0).length _ le_rfl
  rw [hfix] at hlen
  have hmv : mergeValues (row.filter fun x => x != 0) = [] :=
    List.length_eq_zero.mp (by omega)
  rw [hmv]
  rfl

/-- If every cell of the output of `slideRow` on a full-length row is
non-zero, the row was already fully compacted and merge-free: `slideRow`
fixes it and scores nothing. -/
theorem slideRow_id_of_nonzero (row : List Nat) (h4 : row.length = 4)
    (h : ∀ j : Fin 4, (slideRow row).1.getD j.val 0 ≠ 0) : slideRow row = (row, 0) := by
  have hz : ∀ x ∈ row.filter (fun x => x != 0), x ≠ 0 :=
    fun x hx => ne_zero_of_mem_nzFilter hx
  have hlen := mergeOnceSpec_length (row.filter fun x => x != 0).length _ le_rfl
  have hle : (row.filter fun x => x != 0).length ≤ 4 := by
    have := List.length_filter_le (fun x => x != 0) row
    omega
  have hmos4 : (mergeOnceSpec (row.filter fun x => x != 0)).length = 4 := by
    by_contra hne
    have hle3 : (mergeOnceSpec (row.filter fun x => x != 0)).length ≤ 3 := by omega
    have hz3 := h 3
    rw [slideRow_closed] at hz3
    exact hz3 (padTo4_getD_three _ hle3)
  have hmv : mergeValues (row.filter fun x => x != 0) = [] :=
    List.length_eq_zero.mp (by omega)
  have hmos : mergeOnceSpec (row.filter fun x => x != 0) = row.filter (fun x => x != 0) :=
    mergeOnceSpec_eq_self (row.filter fun x => x != 0).length _ le_rfl hmv
  have hfl : (row.filter fun x => x != 0).length = row.length := by
    rw [hmos] at hmos4; omega
  have hfself : row.filter (fun x => x != 0) = row := filter_nz_length_eq row hfl
  rw [slideRow_closed, hmos, hmv, hfself, padTo4_eq_self _ h4]
  rfl

/-- Every cell output by `slideRow` is zero, an input cell, or the double
of an input cell. -/
theorem slideRow_mem (row : List Nat) :
    ∀ x ∈ (slideRow row).1, x = 0 ∨ x ∈ row ∨ ∃ y ∈ row, x = y * 2 := by
  intro x hx
  rw [slideRow_eq] at hx
  rcases List.mem_append.mp hx with hx1 | hx2
  · have hmp := (List.mem_filter.mp hx1).1
    rcases mergePass_mem (row.filter fun z => z != 0).length _ le_rfl x hmp with
      h0 | hmem | ⟨y, hy, he⟩
    · exact Or.inl h0
    · exact Or.inr (Or.inl ((List.mem_filter.mp hmem).1))
    · exact Or.inr (Or.inr ⟨y, (List.mem_filter.mp hy).1, he⟩)
  · exact Or.inl (List.eq_of_mem_replicate hx2)

/-! ### The geometric transforms -/

theorem transpose_transpose (b : Board) : transpose (transpose b) = b := rfl

theorem fliplr_fliplr (b : Board) : fliplr (fliplr b) = b := by
  funext p
  simp [fliplr, Fin.rev_rev]

theorem inverseT_forwardT (d : Int) (b : Board) : inverseT d (forwardT d b) = b := by
  unfold inverseT forwardT
  split_ifs
  · exact transpose_transpose b
  · exact fliplr_fliplr b
  · show fliplr (transpose (transpose (fliplr b))) = b
    rw [transpose_transpose, fliplr_fliplr]
  · rfl

theorem forwardT_inverseT (d : Int) (b : Board) : forwardT d (inverseT d b) = b := by
  unfold inverseT forwardT
  split_ifs
  · exact transpose_transpose b
  · exact fliplr_fliplr b
  · show transpose (fliplr (fliplr (transpose b))) = b
    rw [fliplr_fliplr, transpose_transpose]
  · rfl

/-- Every cell of `inverseT d x` is a cell of `x`. -/
theorem inverseT_cells (d : Int) (x : Board) (p : Fin 4 × Fin 4) :
    ∃ q, inverseT d x p = x q := by
  unfold inverseT
  split_ifs
  exacts [⟨(p.2, p.1), rfl⟩, ⟨(p.1, p.2.rev), rfl⟩, ⟨(p.2.rev, p.1), rfl⟩, ⟨p, rfl⟩]

/-- Every cell of `forwardT d b` is a cell of `b`. -/
theorem forwardT_cells (d : Int) (b : Board) (p : Fin 4 × Fin 4) :
    ∃ q, forwardT d b p = b q := by
  unfold forwardT
  split_ifs
  exacts [⟨(p.2, p.1), rfl⟩, ⟨(p.1, p.2.rev), rfl⟩, ⟨(p.2, p.1.rev), rfl⟩, ⟨p, rfl⟩]

/-- `inverseT` only permutes cells, so a fully non-zero image comes from a
fully non-zero board. -/
theorem inverseT_nonzero (d : Int) (x : Board) (h : ∀ q, inverseT d x q ≠ 0) :
    ∀ p, x p ≠ 0 := by
  intro p
  unfold inverseT at h
  split_ifs at h
  · have := h (p.2, p.1)
    simpa [transpose] using this
  · have := h (p.1, p.2.rev)
    simpa [fliplr, Fin.rev_rev] using this
  · have := h (p.2, p.1.rev)
    simpa [fliplr, transpose, Fin.rev_rev] using this
  · exact h p

/-! ### Rows of a board -/

theorem rowList_getD (b : Board) (i j : Fin 4) : (rowList b i).getD j.val 0 = b (i, j) := by
  fin_cases j <;> rfl

theorem rowList_length (b : Board) (i : Fin 4) : (rowList b i).length = 4 := rfl

theorem list4_ext (l1 l2 : List Nat) (h1 : l1.length = 4) (h2 : l2.length = 4)
    (h : ∀ j : Fin 4, l1.getD j.val 0 = l2.getD j.val 0) : l1 = l2 := by
  apply List.ext_getElem (by omega)
  intro n hn1 hn2
  have hj := h ⟨n, by omega⟩
  rwa [List.getD_eq_getElem l1 0 (by omega), List.getD_eq_getElem l2 0 (by omega)] at hj

/-! ### The row loop over the whole board -/

theorem slideBoard_apply (b : Board) (p : Fin 4 × Fin 4) :
    slideBoard b p = (slideRow (rowList b p.1)).1.getD p.2.val 0 := rfl

theorem slideBoard_id_of_rows (t : Board)
    (hrow : ∀ i, slideRow (rowList t i) = (rowList t i, 0)) : slideBoard t = t := by
  funext p
  rw [slideBoard_apply, hrow p.1]
  exact rowList_getD t p.1 p.2

theorem slideScore_zero_of_rows (t : Board)
    (hrow : ∀ i, slideRow (rowList t i) = (rowList t i, 0)) : slideScore t = 0 := by
  simp [slideScore, hrow 0, hrow 1, hrow 2, hrow 3]

theorem moveDet_eq (d : Int) (b : Board) :
    moveDet d b = (inverseT d (slideBoard (forwardT d b)), slideScore (forwardT d b)) := rfl

/-- A board fixed by the whole row loop is fixed row by row. -/
theorem slideBoard_rows (t : Board) (h : slideBoard t = t) :
    ∀ i, (slideRow (rowList t i)).1 = rowList t i := by
  intro i
  apply list4_ext _ _ (slideRow_length _ (rowList_length t i)) (rowList_length t i)
  intro j
  have hc := congrFun h (i, j)
  rw [slideBoard_apply] at hc
  rw [hc, rowList_getD]

/-- If the slide/merge phase returns the board unchanged, it scored
nothing. -/
theorem moveDet_fix_score (d : Int) (b : Board) (h : (moveDet d b).1 = b) :
    (moveDet d b).2 = 0 := by
  have hb : slideBoard (forwardT d b) = forwardT d b := by
    have h2 : forwardT d ((moveDet d b).1) = forwardT d b := by rw [h]
    rw [moveDet_eq] at h2
    simpa [forwardT_inverseT] using h2
  have hrows := slideBoard_rows _ hb
  show slideScore (forwardT d b) = 0
  apply slideScore_zero_of_rows
  intro i
  have h1 := hrows i
  have h2 := slideRow_score_eq_zero _ h1
  exact Prod.ext h1 h2

/-- `move` on a state whose board the slide/merge phase fixes returns the
state unchanged and reports `moved = False`. -/
theorem move_of_fix (k : Nat) (four : Bool) (d : Int) (st : GameState)
    (h : (moveDet d st.board).1 = st.board) : move k four d st = (st, false) := by
  obtain ⟨bo, sc, go⟩ := st
  simp only [move]
  rw [if_pos h.symm, h, moveDet_fix_score d bo h]
  simp

/-! ### Terminal boards -/

/-- Unpacking `is_game_over = True`: no zero cell, no equal horizontal
neighbours, no equal vertical neighbours. -/
theorem is_game_over_parts (b : Board) (h : is_game_over b = true) :
    (∀ i j, b (i, j) ≠ 0) ∧
    (∀ (i : Fin 4) (j : Fin 3), b (i, j.castSucc) ≠ b (i, j.succ)) ∧
    (∀ (i : Fin 3) (j : Fin 4), b (i.castSucc, j) ≠ b (i.succ, j)) := by
  unfold is_game_over at h
  split at h
  · exact absurd h (by simp)
  · split at h
    · exact absurd h (by simp)
    · split at h
      · exact absurd h (by simp)
      · rename_i h1 h2 h3
        simp only [List.any_eq_true, List.mem_finRange, true_and, beq_iff_eq,
          not_exists, exists_prop] at h1 h2 h3
        exact ⟨fun i j => by simpa using h1 i j,
          fun i j => by simpa using h2 i j,
          fun i j => by simpa using h3 i j⟩

/-- A zero-free row with distinct neighbours is fixed by `slideRow` and
scores nothing. -/
theorem slideRow_distinct (a b c d : Nat) (ha : a ≠ 0) (hb : b ≠ 0) (hc : c ≠ 0)
    (hd : d ≠ 0) (hab : a ≠ b) (hbc : b ≠ c) (hcd : c ≠ d) :
    slideRow [a, b, c, d] = ([a, b, c, d], 0) := by
  rw [slideRow_eq]
  have hf : [a, b, c, d].filter (fun x => x != 0) = [a, b, c, d] := by
    simp [List.filter_cons, ha, hb, hc, hd]
  rw [hf]
  have hm : mergePass [a, b, c, d] = ([a, b, c, d], 0) := by
    simp [mergePass_cons_cons, hab, hbc, hcd, mergePass_singleton]
  rw [hm]
  show (padTo4 ([a, b, c, d].filter fun x => x != 0), 0) = _
  rw [hf, padTo4_eq_self [a, b, c, d] (by rfl)]

/-- On a terminal board, every row of every orientation used by `move`
(any direction, valid or not) is zero-free with distinct neighbours. -/
theorem rows_of_terminal (d : Int) (b : Board) (h : is_game_over b = true) :
    ∀ i, slideRow (rowList (forwardT d b) i) = (rowList (forwardT d b) i, 0) := by
  obtain ⟨h0, h1, h2⟩ := is_game_over_parts b h
  intro i
  unfold forwardT
  split_ifs
  · show slideRow [b (0, i), b (1, i), b (2, i), b (3, i)] =
      ([b (0, i), b (1, i), b (2, i), b (3, i)], 0)
    exact slideRow_distinct _ _ _ _ (h0 _ _) (h0 _ _) (h0 _ _) (h0 _ _)
      (h2 0 i) (h2 1 i) (h2 2 i)
  · show slideRow [b (i, (0 : Fin 4).rev), b (i, (1 : Fin 4).rev),
        b (i, (2 : Fin 4).rev), b (i, (3 : Fin 4).rev)] = _
    have e0 : (0 : Fin 4).rev = 3 := by decide
    have e1 : (1 : Fin 4).rev = 2 := by decide
    have e2 : (2 : Fin 4).rev = 1 := by decide
    have e3 : (3 : Fin 4).rev = 0 := by decide
    rw [e0, e1, e2, e3]
    exact slideRow_distinct _ _ _ _ (h0 _ _) (h0 _ _) (h0 _ _) (h0 _ _)
      (Ne.symm (h1 i 2)) (Ne.symm (h1 i 1)) (Ne.symm (h1 i 0))
  · show slideRow [b (0, i.rev), b (1, i.rev), b (2, i.rev), b (3, i.rev)] = _
    exact slideRow_distinct _ _ _ _ (h0 _ _) (h0 _ _) (h0 _ _) (h0 _ _)
      (h2 0 i.rev) (h2 1 i.rev) (h2 2 i.rev)
  · show slideRow [b (i, 0), b (i, 1), b (i, 2), b (i, 3)] = _
    exact slideRow_distinct _ _ _ _ (h0 _ _) (h0 _ _) (h0 _ _) (h0 _ _)
      (h1 i 0) (h1 i 1) (h1 i 2)

/-- On a terminal board the whole slide/merge phase is the identity with
score zero, in every direction. -/
theorem moveDet_of_game_over (d : Int) (b : Board) (h : is_game_over b = true) :
    moveDet d b = (b, 0) := by
  have hrow := rows_of_terminal d b h
  rw [moveDet_eq, slideBoard_id_of_rows _ hrow, slideScore_zero_of_rows _ hrow,
    inverseT_forwardT]

/-! ### Effective moves and spawning -/

/-- If every cell of the slide/merge result is non-zero, the move did
nothing: the board was already compacted and merge-free. -/
theorem moveDet_all_nonzero_fix (d : Int) (b : Board)
    (h : ∀ p, (moveDet d b).1 p ≠ 0) : moveDet d b = (b, 0) := by
  rw [moveDet_eq] at h
  have ht : ∀ p, slideBoard (forwardT d b) p ≠ 0 := inverseT_nonzero d _ h
  have hrow : ∀ i, slideRow (rowList (forwardT d b) i) = (rowList (forwardT d b) i, 0) := by
    intro i
    apply slideRow_id_of_nonzero _ (rowList_length _ i)
    intro j
    exact ht (i, j)
  rw [moveDet_eq, slideBoard_id_of_rows _ hrow, slideScore_zero_of_rows _ hrow,
    inverseT_forwardT]

/-- An effective move always leaves an empty cell for the spawn step. -/
theorem moveDet_effective_empty (d : Int) (b : Board) (h : (moveDet d b).1 ≠ b) :
    ∃ p, (moveDet d b).1 p = 0 := by
  by_contra hc
  push_neg at hc
  exact h (congrArg Prod.fst (moveDet_all_nonzero_fix d b hc))

theorem mem_empty_cells (b : Board) (p : Fin 4 × Fin 4) :
    p ∈ empty_cells b ↔ b p = 0 := by
  obtain ⟨i, j⟩ := p
  simp only [empty_cells, List.mem_flatMap, List.mem_map, List.mem_filter,
    List.mem_finRange, true_and, beq_iff_eq]
  constructor
  · rintro ⟨i2, j2, hz, he⟩
    rw [← he]
    exact hz
  · intro hz
    exact ⟨i, j, hz, rfl⟩

/-- `add_new_tile` on a board with an empty cell writes `2` or `4` into
some empty cell and changes nothing else. -/
theorem add_new_tile_spec (k : Nat) (four : Bool) (b : Board) (h : empty_cells b ≠ []) :
    ∃ p ∈ empty_cells b,
      add_new_tile k four b = fun q => if q = p then (if four then 4 else 2) else b q := by
  refine ⟨(empty_cells b).get
    ⟨k % (empty_cells b).length, Nat.mod_lt _ (List.length_pos.mpr h)⟩,
    List.get_mem _ _ _, ?_⟩
  unfold add_new_tile
  rw [dif_neg h]

/-- Writing a non-zero value into a zero cell adds exactly one non-zero
cell. -/
theorem countNZ_update (b : Board) (p : Fin 4 × Fin 4) (v : Nat) (hp : b p = 0)
    (hv : v ≠ 0) :
    countNZBoard (fun q => if q = p then v else b q) = countNZBoard b + 1 := by
  unfold countNZBoard
  have hset : (Finset.univ.filter fun q : Fin 4 × Fin 4 => (if q = p then v else b q) ≠ 0) =
      insert p (Finset.univ.filter fun q : Fin 4 × Fin 4 => b q ≠ 0) := by
    ext q
    by_cases hq : q = p
    · subst hq
      simp [hv]
    · simp [hq]
  rw [hset, Finset.card_insert_of_not_mem (by simp [hp])]

/-! ### The value invariant -/

theorem validCell_double (v : Nat) (h : validCell v) : validCell (v * 2) := by
  rcases h with h0 | ⟨n, hn⟩
  · left; rw [h0]
  · right
    exact ⟨n + 1, by rw [hn, ← pow_succ]⟩

theorem getD_mem_or (l : List Nat) (n : Nat) (d : Nat) :
    l.getD n d = d ∨ l.getD n d ∈ l := by
  induction l generalizing n with
  | nil => exact Or.inl rfl
  | cons a t ih =>
    cases n with
    | zero => exact Or.inr (List.mem_cons_self a t)
    | succ m =>
      rcases ih m with h | h
      · exact Or.inl h
      · exact Or.inr (List.mem_cons_of_mem a h)

theorem rowList_mem (b : Board) (i : Fin 4) :
    ∀ x ∈ rowList b i, ∃ q, x = b q := by
  intro x hx
  simp only [rowList, List.mem_cons, List.not_mem_nil, or_false] at hx
  rcases hx with h | h | h | h
  · exact ⟨(i, 0), h⟩
  · exact ⟨(i, 1), h⟩
  · exact ⟨(i, 2), h⟩
  · exact ⟨(i, 3), h⟩

theorem validBoard_moveDet (d : Int) (b : Board) (h : validBoard b) :
    validBoard (moveDet d b).1 := by
  intro p
  show validCell (inverseT d (slideBoard (forwardT d b)) p)
  obtain ⟨q, hq⟩ := inverseT_cells d (slideBoard (forwardT d b)) p
  rw [hq, slideBoard_apply]
  have hvrow : ∀ x ∈ rowList (forwardT d b) q.1, validCell x := by
    intro x hx
    obtain ⟨r, hr⟩ := rowList_mem (forwardT d b) q.1 x hx
    obtain ⟨s, hs⟩ := forwardT_cells d b r
    rw [hr, hs]
    exact h s
  rcases getD_mem_or (slideRow (rowList (forwardT d b) q.1)).1 q.2.val 0 with h0 | hm
  · rw [h0]; exact Or.inl rfl
  · rcases slideRow_mem _ _ hm with h0 | hmem | ⟨y, hy, he⟩
    · rw [h0]; exact Or.inl rfl
    · exact hvrow _ hmem
    · rw [he]
      exact validCell_double y (hvrow y hy)

theorem validBoard_add_new_tile (k : Nat) (four : Bool) (b : Board)
    (h : validBoard b) : validBoard (add_new_tile k four b) := by
  by_cases he : empty_cells b = []
  · unfold add_new_tile
    rw [dif_pos he]
    exact h
  · obtain ⟨p, _, heq⟩ := add_new_tile_spec k four b he
    rw [heq]
    intro q
    by_cases hq : q = p
    · show validCell (if q = p then (if four then 4 else 2) else b q)
      rw [if_pos hq]
      cases four
      · exact Or.inr ⟨0, rfl⟩
      · exact Or.inr ⟨1, rfl⟩
    · show validCell (if q = p then (if four then 4 else 2) else b q)
      rw [if_neg hq]
      exact h q

theorem validBoard_move (k : Nat) (four : Bool) (d : Int) (st : GameState)
    (h : validBoard st.board) : validBoard (move k four d st).1.board := by
  simp only [move]
  split
  · exact validBoard_moveDet d st.board h
  · exact validBoard_add_new_tile _ _ _ (validBoard_moveDet d st.board h)

theorem validBoard_reset (k1 k2 : Nat) (f1 f2 : Bool) :
    validBoard (reset k1 k2 f1 f2).board := by
  apply validBoard_add_new_tile
  apply validBoard_add_new_tile
  intro p
  exact Or.inl rfl

theorem validBoard_run (ms : List (Nat × Bool × Int)) (st : GameState)
    (h : validBoard st.board) : validBoard (run ms st).board := by
  induction ms generalizing st with
  | nil => exact h
  | cons m rest ih => exact ih _ (validBoard_move m.1 m.2.1 m.2.2 st h)

/-! ### Scores of a whole move -/

/-- `move` always adds the slide/merge score to `self.score`, whether or
not the board changed (the increment happens inside the row loop). -/
theorem move_score (k : Nat) (four : Bool) (d : Int) (st : GameState) :
    (move k four d st).1.score = st.score + (moveDet d st.board).2 := by
  simp only [move]
  split <;> rfl

/-- The slide/merge score of a move is twice the sum of the values merged
in the four rows of the transformed board. -/
theorem moveDet_score_eq (d : Int) (b : Board) :
    (moveDet d b).2 = 2 * (mergeValuesOfMove d b).sum := by
  show slideScore (forwardT d b) = _
  unfold slideScore mergeValuesOfMove
  rw [slideRow_score, slideRow_score, slideRow_score, slideRow_score,
    List.sum_append, List.sum_append, List.sum_append]
  ring

/-! ### The down move versus the up move -/

theorem down_up_board (b : Board) :
    fliplr (transpose (slideBoard (transpose (fliplr b)))) =
      transpose (slideBoard (transpose b)) := by
  funext p
  obtain ⟨i, j⟩ := p
  simp [fliplr, transpose, slideBoard, rowList, Fin.rev_rev]

theorem down_up_score (b : Board) :
    slideScore (transpose (fliplr b)) = slideScore (transpose b) := by
  have e0 : (0 : Fin 4).rev = 3 := by decide
  have e1 : (1 : Fin 4).rev = 2 := by decide
  have e2 : (2 : Fin 4).rev = 1 := by decide
  have e3 : (3 : Fin 4).rev = 0 := by decide
  simp only [slideScore, rowList, transpose, fliplr, e0, e1, e2, e3]
  ring

/-! ### The claims -/

/-- C1.  The claim states that for every direction the canonical route
(forward transform, slide-left, exact inverse) computes that direction's
slide/merge, with the down transform being transpose-then-flip.  The code
instead uses `np.fliplr(board).T` (flip, then transpose) as the forward
transform for down, with exact inverse `np.fliplr(board.T)`; on the board
with column 0 equal to `[2, 2, 0, 0]` this leaves the merged `4` at the top
cell `(0, 0)`, while the spec's canonicalization of down (`moveDownSpec`)
puts it at the bottom cell `(3, 0)`.  The code's "down" move therefore is
not a down slide/merge at all. -/
theorem down_canonicalization_diverges :
    (moveDet 2 exTwoInColumn).1 ≠ (moveDownSpec exTwoInColumn).1 ∧
    (moveDet 2 exTwoInColumn).1 (0, 0) = 4 ∧
    (moveDet 2 exTwoInColumn).1 (3, 0) = 0 ∧
    (moveDownSpec exTwoInColumn).1 (3, 0) = 4 ∧
    (moveDownSpec exTwoInColumn).1 (0, 0) = 0 := by
  decide

/-- C2.  For every board, the deterministic slide/merge phase of
`move(2)` (down) — resulting grid and score increase — is identical to that
of `move(0)` (up): both compact every column toward row index 0. -/
theorem down_slide_equals_up_slide : ∀ b : Board, moveDet 2 b = moveDet 0 b := by
  intro b
  have h2 : moveDet 2 b =
      (fliplr (transpose (slideBoard (transpose (fliplr b)))),
        slideScore (transpose (fliplr b))) := by
    rw [moveDet_eq]
    norm_num [forwardT, inverseT]
  have h0 : moveDet 0 b =
      (transpose (slideBoard (transpose b)), slideScore (transpose b)) := by
    rw [moveDet_eq]
    norm_num [forwardT, inverseT]
  rw [h2, h0, down_up_board, down_up_score]

/-- C3, counterexample.  A direction outside `{0, 1, 2, 3}` is not rejected:
`move(5)` runs to completion, performs exactly the left slide/merge, changes
the board of `exSingleTile` and returns `moved = True`. -/
theorem invalid_direction_not_rejected :
    moveDet 5 exSingleTile = moveDet 3 exSingleTile ∧
    (moveDet 5 exSingleTile).1 ≠ exSingleTile ∧
    (move 0 false 5 ⟨exSingleTile, 0, false⟩).2 = true := by
  decide

/-- C3, amended.  A direction outside `{0, 1, 2}` matches none of the
transform branches, so the slide/merge phase silently performs the left
move (the identity transform), exactly as direction `3` does. -/
theorem invalid_direction_acts_as_left : ∀ (d : Int) (b : Board),
    d ≠ 0 → d ≠ 1 → d ≠ 2 → moveDet d b = moveDet 3 b := by
  intro d b h0 h1 h2
  simp only [moveDet_eq, forwardT, inverseT, if_neg h0, if_neg h1, if_neg h2]
  norm_num

/-- Witness for C3: the amended theorem applied at direction `5`. -/
theorem invalid_direction_acts_as_left_witness :
    moveDet 5 exSingleTile = moveDet 3 exSingleTile :=
  invalid_direction_acts_as_left 5 exSingleTile (by decide) (by decide) (by decide)

/-- C4.  Each tile merges at most once per move: on zero-free rows the
source's merge loop computes exactly the spec's merge-once scan (which
advances past a freshly merged cell), and in particular `[2,2,2,2]` slides
to `[4,4,0,0]` (scoring 8, never `[8,0,0,0]`) and `[2,2,4,4]` slides to
`[4,8,0,0]`. -/
theorem merge_scan_merges_each_tile_once :
    (∀ l : List Nat, (∀ x ∈ l, x ≠ 0) →
      (mergePass l).1.filter (fun x => x != 0) = mergeOnceSpec l) ∧
    slideRow [2, 2, 2, 2] = ([4, 4, 0, 0], 8) ∧
    slideRow [2, 2, 4, 4] = ([4, 8, 0, 0], 12) :=
  ⟨fun l h => mergePass_filter_eq l h, by decide, by decide⟩

/-- Witness for C4: the general part applied to the row `[2, 2, 2, 2]`. -/
theorem merge_scan_merges_each_tile_once_witness :
    (mergePass [2, 2, 2, 2]).1.filter (fun x => x != 0) = mergeOnceSpec [2, 2, 2, 2] :=
  merge_scan_merges_each_tile_once.1 [2, 2, 2, 2] (by decide)

/-- C5.  For every move on every state the score never decreases, and the
increase is exactly the sum of the doubled values `2v` of all merges
performed in that move. -/
theorem move_score_monotone_and_exact : ∀ (k : Nat) (four : Bool) (d : Int) (st : GameState),
    st.score ≤ (move k four d st).1.score ∧
    (move k four d st).1.score = st.score + 2 * (mergeValuesOfMove d st.board).sum := by
  intro k four d st
  have h := move_score k four d st
  constructor
  · rw [h]
    exact Nat.le_add_right _ _
  · rw [h, moveDet_score_eq]

/-- C6.  If the slide/merge phase leaves every cell unchanged, the move is
a no-op: the state (grid, score, terminal flag) is returned unchanged, the
non-zero-cell count is unchanged (no spawn), and `move` returns `False`. -/
theorem noop_move_preserves_state : ∀ (k : Nat) (four : Bool) (d : Int) (st : GameState),
    (moveDet d st.board).1 = st.board →
    move k four d st = (st, false) ∧
    (move k four d st).1.score = st.score ∧
    countNZBoard (move k four d st).1.board = countNZBoard st.board := by
  intro k four d st h
  have hm := move_of_fix k four d st h
  exact ⟨hm, by rw [hm], by rw [hm]⟩

/-- Witness for C6: a left move on the empty board is a no-op. -/
theorem noop_move_preserves_state_witness :
    move 0 false 3 ⟨zeroBoard, 0, false⟩ = (⟨zeroBoard, 0, false⟩, false) ∧
    (move 0 false 3 ⟨zeroBoard, 0, false⟩).1.score = (⟨zeroBoard, 0, false⟩ : GameState).score ∧
    countNZBoard (move 0 false 3 ⟨zeroBoard, 0, false⟩).1.board =
      countNZBoard (⟨zeroBoard, 0, false⟩ : GameState).board :=
  noop_move_preserves_state 0 false 3 ⟨zeroBoard, 0, false⟩ (by decide)

/-- C7.  Once `is_game_over` holds, every `move`, in any direction, leaves
the whole state unchanged and returns `False`; the call is an ordinary
no-op, not an error (the model's `move` is total). -/
theorem terminal_moves_are_noops : ∀ (k : Nat) (four : Bool) (d : Int) (st : GameState),
    is_game_over st.board = true → move k four d st = (st, false) := by
  intro k four d st h
  apply move_of_fix
  rw [moveDet_of_game_over d st.board h]

/-- Witness for C7: a move on a terminal checkerboard state. -/
theorem terminal_moves_are_noops_witness :
    move 0 false 0 ⟨terminalBoard, 0, true⟩ = (⟨terminalBoard, 0, true⟩, false) :=
  terminal_moves_are_noops 0 false 0 ⟨terminalBoard, 0, true⟩ (by decide)

/-- C8.  After an effective move (the slide/merge changed some cell) an
empty cell always exists, the board stored by `move` is the spawned board,
and the spawn writes a single `2` or `4` into an empty cell, so exactly one
non-zero cell is added to the post-slide grid. -/
theorem effective_move_spawns_one_tile : ∀ (k : Nat) (four : Bool) (d : Int) (b : Board),
    (moveDet d b).1 ≠ b →
    empty_cells (moveDet d b).1 ≠ [] ∧
    (∀ (s : Nat) (g : Bool),
      (move k four d ⟨b, s, g⟩).1.board = add_new_tile k four (moveDet d b).1) ∧
    ∃ p, (moveDet d b).1 p = 0 ∧
      add_new_tile k four (moveDet d b).1 =
        (fun q => if q = p then (if four then 4 else 2) else (moveDet d b).1 q) ∧
      (add_new_tile k four (moveDet d b).1 p = 2 ∨
        add_new_tile k four (moveDet d b).1 p = 4) ∧
      countNZBoard (add_new_tile k four (moveDet d b).1) =
        countNZBoard (moveDet d b).1 + 1 := by
  intro k four d b h
  obtain ⟨p0, hp0⟩ := moveDet_effective_empty d b h
  have hne : empty_cells (moveDet d b).1 ≠ [] :=
    List.ne_nil_of_mem ((mem_empty_cells _ p0).mpr hp0)
  obtain ⟨p, hpmem, heq⟩ := add_new_tile_spec k four _ hne
  have hpz : (moveDet d b).1 p = 0 := (mem_empty_cells _ p).mp hpmem
  refine ⟨hne, ?_, p, hpz, heq, ?_, ?_⟩
  · intro s g
    simp only [move]
    rw [if_neg fun e => h e.symm]
  · simp only [heq, if_pos rfl]
    cases four
    · exact Or.inl rfl
    · exact Or.inr rfl
  · rw [heq]
    exact countNZ_update _ p _ hpz (by cases four <;> simp)

/-- Witness for C8: a left move on a board with a single off-column tile. -/
theorem effective_move_spawns_one_tile_witness :
    empty_cells (moveDet 3 exSingleTile).1 ≠ [] ∧
    (∀ (s : Nat) (g : Bool),
      (move 0 false 3 ⟨exSingleTile, s, g⟩).1.board =
        add_new_tile 0 false (moveDet 3 exSingleTile).1) ∧
    ∃ p, (moveDet 3 exSingleTile).1 p = 0 ∧
      add_new_tile 0 false (moveDet 3 exSingleTile).1 =
        (fun q => if q = p then (if false then 4 else 2) else (moveDet 3 exSingleTile).1 q) ∧
      (add_new_tile 0 false (moveDet 3 exSingleTile).1 p = 2 ∨
        add_new_tile 0 false (moveDet 3 exSingleTile).1 p = 4) ∧
      countNZBoard (add_new_tile 0 false (moveDet 3 exSingleTile).1) =
        countNZBoard (moveDet 3 exSingleTile).1 + 1 :=
  effective_move_spawns_one_tile 0 false 3 exSingleTile (by decide)

/-- C9.  Every board reachable from `reset` by any sequence of `move`
calls has only cells that are `0` or a positive power of two; the invariant
is preserved by the spawn step and by every slide/merge. -/
theorem reachable_cells_are_powers_of_two :
    ∀ (k1 k2 : Nat) (f1 f2 : Bool) (ms : List (Nat × Bool × Int)),
    validBoard (run ms (reset k1 k2 f1 f2)).board :=
  fun k1 k2 f1 f2 ms => validBoard_run ms _ (validBoard_reset k1 k2 f1 f2)

/-- C10.  `reset` produces a board with exactly two non-zero cells, each of
value `2` or `4`, score `0` and a cleared terminal flag (the previous state
is discarded wholesale, so this holds from any prior state). -/
theorem reset_gives_two_tiles_and_zero_score : ∀ (k1 k2 : Nat) (f1 f2 : Bool),
    countNZBoard (reset k1 k2 f1 f2).board = 2 ∧
    (∀ p, (reset k1 k2 f1 f2).board p ≠ 0 →
      (reset k1 k2 f1 f2).board p = 2 ∨ (reset k1 k2 f1 f2).board p = 4) ∧
    (reset k1 k2 f1 f2).score = 0 ∧
    (reset k1 k2 f1 f2).game_over = false := by
  intro k1 k2 f1 f2
  have h1ne : empty_cells zeroBoard ≠ [] := by decide
  obtain ⟨p1, hp1mem, he1⟩ := add_new_tile_spec k1 f1 zeroBoard h1ne
  have hz1 : countNZBoard zeroBoard = 0 := by decide
  have hcount1 : countNZBoard (add_new_tile k1 f1 zeroBoard) = 1 := by
    rw [he1, countNZ_update _ _ _ rfl (by cases f1 <;> simp), hz1]
  obtain ⟨q, hq⟩ : ∃ q, add_new_tile k1 f1 zeroBoard q = 0 := by
    by_cases hp : p1 = ((0 : Fin 4), (0 : Fin 4))
    · refine ⟨((0 : Fin 4), (1 : Fin 4)), ?_⟩
      simp only [he1, hp]
      rw [if_neg (by decide)]
      rfl
    · refine ⟨((0 : Fin 4), (0 : Fin 4)), ?_⟩
      simp only [he1]
      rw [if_neg fun e => hp e.symm]
      rfl
  have h2ne : empty_cells (add_new_tile k1 f1 zeroBoard) ≠ [] :=
    List.ne_nil_of_mem ((mem_empty_cells _ q).mpr hq)
  obtain ⟨p2, hp2mem, he2⟩ := add_new_tile_spec k2 f2 (add_new_tile k1 f1 zeroBoard) h2ne
  have hp2z : add_new_tile k1 f1 zeroBoard p2 = 0 := (mem_empty_cells _ p2).mp hp2mem
  refine ⟨?_, ?_, rfl, rfl⟩
  · show countNZBoard (add_new_tile k2 f2 (add_new_tile k1 f1 zeroBoard)) = 2
    rw [he2, countNZ_update _ _ _ hp2z (by cases f2 <;> simp), hcount1]
  · intro p hp
    have hp2 : add_new_tile k2 f2 (add_new_tile k1 f1 zeroBoard) p ≠ 0 := hp
    show add_new_tile k2 f2 (add_new_tile k1 f1 zeroBoard) p = 2 ∨
      add_new_tile k2 f2 (add_new_tile k1 f1 zeroBoard) p = 4
    simp only [he2] at hp2 ⊢
    by_cases hpp2 : p = p2
    · rw [if_pos hpp2]
      cases f2
      · exact Or.inl rfl
      · exact Or.inr rfl
    · rw [if_neg hpp2] at hp2 ⊢
      simp only [he1] at hp2 ⊢
      by_cases hpp1 : p = p1
      · rw [if_pos hpp1]
        cases f1
        · exact Or.inl rfl
        · exact Or.inr rfl
      · rw [if_neg hpp1] at hp2
        exact absurd rfl hp2

/-- Witness for C10: with both spawn oracles at index `0` and the 90%
branch, the tile spawned at `(0, 0)` is a `2`. -/
theorem reset_gives_two_tiles_and_zero_score_witness :
    (reset 0 0 false false).board (0, 0) ≠ 0 ∧
    ((reset 0 0 false false).board (0, 0) = 2 ∨ (reset 0 0 false false).board (0, 0) = 4) :=
  ⟨by decide, (reset_gives_two_tiles_and_zero_score 0 0 false false).2.1 (0, 0) (by decide)⟩

end Game2048
